import Mathlib

/-!
Verification of the reactive dependency-tracking engine of the lit-fx
repository (packages/fx and packages/element).

The repository snapshot contains `packages/fx/src/computed.ts` and
`packages/element/src/instance.ts` (plus props/logging/tooling).  The core
engine files (`fx.ts`, `ref.ts`, `queue.ts`, `reactive.ts`) are referenced by
that code but are not part of the snapshot, so those parts are modelled from
the specification, as marked on each definition.

Conventions of the embedding:
* a (target, key) pair is a `Loc` (two natural-number identifiers);
* a `Dep` is the insertion-ordered list of effect ids subscribed to one `Loc`;
* the registry maps each `Loc` to its `Dep`; an effect's `deps` list is the
  list of `Loc`s it is currently subscribed to (a `Dep` is canonically
  identified by its `Loc`, since `track` obtains or creates the one `Dep`
  of a `(target, key)` pair);
* JavaScript exceptions are modelled with `Option`/explicit result values.
-/

namespace LitFx

/-- A (target, key) location: target identity paired with property key. -/
abbrev Loc := Nat × Nat

/-- Modelled from the spec: the global state of the dependency registry and
tracking context of `fx.ts` (not in the snapshot).  `registry` maps each
location to its Dep (insertion-ordered effect-id list), `effDeps` maps each
effect id to its current deps list, `activeStack` is the stack of running
effects (head = active effect), and `pauseCount` is the reentrant
pause-tracking counter. -/
structure FxState where
  registry : Loc → List Nat
  effDeps : Nat → List Loc
  activeStack : List Nat
  pauseCount : Nat

/-- The pristine engine state: empty registry, no deps, no active effect. -/
def initState : FxState where
  registry := fun _ => []
  effDeps := fun _ => []
  activeStack := []
  pauseCount := 0

/-- Modelled from the spec: `pauseTracking()` increments the reentrant
pause counter. -/
def pauseTracking (s : FxState) : FxState :=
  { s with pauseCount := s.pauseCount + 1 }

/-- Modelled from the spec: `resetTracking()` decrements the reentrant
pause counter. -/
def resetTracking (s : FxState) : FxState :=
  { s with pauseCount := s.pauseCount - 1 }

/-- Modelled from the spec: `track(target, key)`: no-op if tracking is paused
or no effect is active; otherwise, if the active effect is not already in the
Dep of the location, add it to the Dep and append the Dep to the effect's
deps list. -/
def track (s : FxState) (l : Loc) : FxState :=
  if 0 < s.pauseCount then s
  else
    match s.activeStack.head? with
    | none => s
    | some fx =>
      if fx ∈ s.registry l then s
      else
        { s with
          registry := Function.update s.registry l (s.registry l ++ [fx])
          effDeps := Function.update s.effDeps fx (s.effDeps fx ++ [l]) }

/-- Modelled from the spec: the cleanup phase of `Fx.run`: for each Dep
currently in the effect's deps list, remove the effect from that Dep, then
clear the deps list. -/
def cleanup (s : FxState) (fx : Nat) : FxState :=
  { s with
    registry := fun l =>
      if l ∈ s.effDeps fx then (s.registry l).filter (fun g => g != fx)
      else s.registry l
    effDeps := Function.update s.effDeps fx [] }

/-- Modelled from the spec: entering a run pushes the effect onto the
active-effect stack. -/
def pushActive (s : FxState) (fx : Nat) : FxState :=
  { s with activeStack := fx :: s.activeStack }

/-- Modelled from the spec: completing a run pops the active-effect stack,
restoring the previous active effect. -/
def popActive (s : FxState) : FxState :=
  { s with activeStack := s.activeStack.tail }

/-- Modelled from the spec: `Fx.run` of an effect whose function performs the
given list of reads: clean up stale subscriptions, push the effect on the
active stack, perform each read through `track`, pop the stack. -/
def runReads (s : FxState) (fx : Nat) (reads : List Loc) : FxState :=
  popActive (reads.foldl track (pushActive (cleanup s fx) fx))

/-- Modelled from the spec: the run-set a SET/DELETE `trigger(target, key)`
collects: the Dep registered for the location. -/
def triggerSet (s : FxState) (l : Loc) : List Nat :=
  s.registry l

/-- Registry/deps-list coherence: an effect is a member of a location's Dep
exactly when that location is in the effect's deps list. -/
def WF (s : FxState) : Prop :=
  ∀ g l, g ∈ s.registry l ↔ l ∈ s.effDeps g

/-! ## Computed values — `packages/fx/src/computed.ts` (`computedGetter`)

The closure built by `computedGetter` holds a cached `value`, a `dirty` flag
(initially `true`) and an internal lazy `Fx` whose scheduler sets
`dirty = true`.  `CompCtx` fixes the internal effect's identity, the reads its
getter performs, and the value the getter produces; `runCount` counts
executions of the underlying getter (`fx.run`). -/

/-- Static data of one computed value: the internal effect id, the locations
the getter reads, and the value the getter computes. -/
structure CompCtx where
  innerId : Nat
  reads : List Loc
  getterVal : Nat

/-- Dynamic state of one computed value together with the engine state. -/
structure CompS where
  fx : FxState
  value : Nat
  dirty : Bool
  runCount : Nat

/-- One iteration of the propagation loop of `computedGetter` (computed.ts
lines 36-41): if the Dep of the location does not already have the outer
effect, add the outer effect to the Dep and append the Dep to the outer
effect's deps list. -/
def propStep (outer : Nat) (st : FxState) (l : Loc) : FxState :=
  if outer ∈ st.registry l then st
  else
    { st with
      registry := Function.update st.registry l (st.registry l ++ [outer])
      effDeps := Function.update st.effDeps outer (st.effDeps outer ++ [l]) }

/-- The propagation loop of `computedGetter` (computed.ts lines 34-42): run
`propStep` over every Dep in the internal effect's deps list. -/
def propagate (inner outer : Nat) (s : FxState) : FxState :=
  (s.effDeps inner).foldl (propStep outer) s

/-- The `if (activeFx)` guard of `computedGetter` (computed.ts line 35):
propagate into the outer active effect, when there is one. -/
def propagateToActive (inner : Nat) (s : FxState) : FxState :=
  match s.activeStack.head? with
  | none => s
  | some outer => propagate inner outer s

/-- The returned getter of `computedGetter` (computed.ts lines 28-45): if
`dirty`, run the internal effect to recompute and cache the value and clear
`dirty`; then, if an outer effect is active, propagate the internal effect's
deps into it. -/
def compRead (γ : CompCtx) (s : CompS) : CompS :=
  let s1 :=
    if s.dirty then
      { s with
        fx := runReads s.fx γ.innerId γ.reads
        value := γ.getterVal
        dirty := false
        runCount := s.runCount + 1 }
    else s
  { s1 with fx := propagateToActive γ.innerId s1.fx }

/-- A `trigger` on a location, restricted to its effect on the computed value:
if the internal effect is subscribed to the location, its scheduler runs and
sets `dirty = true` (computed.ts line 25); the getter is never executed. -/
def compTrigger (γ : CompCtx) (l : Loc) (s : CompS) : CompS :=
  if γ.innerId ∈ s.fx.registry l then { s with dirty := true } else s

/-- A sequence of `n` consecutive reads of the computed value. -/
def compReads (γ : CompCtx) : Nat → CompS → CompS
  | 0, s => s
  | n + 1, s => compReads γ n (compRead γ s)

/-- A sequence of `n` consecutive dependency triggers on one location. -/
def compTriggers (γ : CompCtx) (l : Loc) : Nat → CompS → CompS
  | 0, s => s
  | n + 1, s => compTriggers γ l n (compTrigger γ l s)

/-! ## Deferred task queue — modelled from the spec (`queue.ts` is not in the
snapshot)

A job is a `Nat` id; `env j` lists the jobs that executing `j` pushes, and
`thr j` tells whether `j` throws.  `flushLoop` is the index-based flush with
the runaway-cascade fuel guard; it emits an event per executed job. -/

/-- Observable events of a flush: a job ran, a job's error was caught and
reported, or the runaway-cascade guard fired. -/
inductive QEv where
  | ran (j : Nat)
  | errored (j : Nat)
  | loopError
deriving DecidableEq, Repr

/-- Modelled from the spec: the queue's pending job sequence, per-job pending
flags and the flushing flag. -/
structure QState where
  jobs : List Nat
  pending : Nat → Bool
  flushing : Bool

/-- The empty queue. -/
def qinit : QState where
  jobs := []
  pending := fun _ => false
  flushing := false

/-- Modelled from the spec: `push(job)`: if the job is already pending,
return; else mark it pending and append it to the pending sequence. -/
def qpush (q : QState) (j : Nat) : QState :=
  if q.pending j then q
  else { q with pending := Function.update q.pending j true, jobs := q.jobs ++ [j] }

/-- Modelled from the spec: executing one job during a flush: a throwing job
is caught and reported; otherwise the job runs and pushes the jobs its body
pushes. -/
def execJob (env : Nat → List Nat) (thr : Nat → Bool) (q : QState) (j : Nat) :
    QState × QEv :=
  if thr j then (q, QEv.errored j)
  else ((env j).foldl qpush q, QEv.ran j)

/-- Modelled from the spec: the index-based flush iteration: at each index,
clear that job's pending flag, then execute it; jobs appended during the
flush extend the sequence and are reached by the same iteration; running out
of fuel with a job still pending is the reported "update loop" error. -/
def flushLoop (env : Nat → List Nat) (thr : Nat → Bool) :
    Nat → QState → Nat → List QEv → QState × List QEv
  | fuel, q, i, log =>
    match q.jobs[i]? with
    | none => ({ q with jobs := [], flushing := false }, log)
    | some j =>
      match fuel with
      | 0 => ({ q with jobs := [], flushing := false }, log ++ [QEv.loopError])
      | f + 1 =>
        let q1 := { q with pending := Function.update q.pending j false }
        let p := execJob env thr q1 j
        flushLoop env thr f p.1 (i + 1) (log ++ [p.2])

/-- Modelled from the spec: `flush()`: set the flushing flag and drain the
pending sequence from index 0. -/
def qflush (env : Nat → List Nat) (thr : Nat → Bool) (fuel : Nat) (q : QState) :
    QState × List QEv :=
  flushLoop env thr fuel { q with flushing := true } 0 []

/-- Queue sanity: the pending sequence has no duplicates and the pending flag
holds exactly for the jobs in the sequence. -/
def QInv (q : QState) : Prop :=
  q.jobs.Nodup ∧ ∀ j, q.pending j = true ↔ j ∈ q.jobs

/-! ## Element instance scheduling — `packages/element/src/instance.ts`

`FxInstance.scheduleUpdate` (lines 181-199) guards on the `rendering` flag,
sets it, and pushes a fresh closure on the queue; the closure runs the update
(and hooks) and only at its very end clears `rendering`.  There is no
try/finally: if the update throws, the `rendering := false` statement is not
reached (the flush catches the error and moves on). -/

/-- The per-instance flags of `FxInstance` relevant to scheduling. -/
structure Inst where
  rendering : Bool
  mounted : Bool
deriving DecidableEq, Repr

/-- `FxInstance.scheduleUpdate`: return at once if `rendering` is set, else
set it and enqueue one render closure (the second component counts enqueued
closures; each call pushes a fresh closure object). -/
def scheduleUpdate (s : Inst × Nat) : Inst × Nat :=
  if s.1.rendering then s
  else ({ s.1 with rendering := true }, s.2 + 1)

/-- A sequence of `n` consecutive `scheduleUpdate` calls. -/
def schedN : Nat → (Inst × Nat) → Inst × Nat
  | 0, s => s
  | n + 1, s => schedN n (scheduleUpdate s)

/-- The render closure queued by `scheduleUpdate`: when the update function
throws, execution aborts before `mounted := true` and before
`rendering := false`; otherwise the run completes, sets `mounted` and clears
`rendering`. -/
def renderJob (throws : Bool) (s : Inst) : Inst :=
  if throws then s
  else { rendering := false, mounted := true }

/-- `FxInstance.setup` around the user setup function (instance.ts lines
140-143): `Fx.pauseTracking()`, then the setup call, then
`Fx.resetTracking()` — with no try/finally, so a throwing setup function
skips the reset and the exception propagates. -/
def setupRun (throws : Bool) (s : FxState) : FxState :=
  let s1 := pauseTracking s
  if throws then s1 else resetTracking s1

/-! ## Values, refs and element props

`reactive.ts`/`ref.ts` are not in the snapshot; the value universe and the
recursive wrapping `toReactive` are modelled from the spec (wrapping is
idempotent, primitives are left untouched, identical targets yield the
identity-stable wrapper).  The element prop setter is embedded from
`instance.ts` lines 250-262. -/

/-- A stored value: a primitive, a plain container, or the reactive wrapper
of the container with the same identity. -/
inductive Value where
  | prim (n : Nat)
  | obj (id : Nat)
  | robj (id : Nat)
deriving DecidableEq, Repr

/-- Modelled from the spec: `toReactive` wraps a container in its reactive
wrapper and leaves primitives and already-wrapped values unchanged. -/
def toReactive : Value → Value
  | Value.obj id => Value.robj id
  | v => v

/-- A trigger call observed by the bookkeeping, `SET` on a property key
(keys are numbered; key `0` stands for the ref pseudo-property `value`). -/
inductive TrigEv where
  | set (key : Nat)
deriving DecidableEq, Repr

/-- A ref cell: one stored value. -/
structure RefCell where
  value : Value
deriving DecidableEq, Repr

/-- Modelled from the spec: the ref write: compare the new value to the
stored value; if unequal, store the (possibly recursively-wrapped) new value
and trigger SET on the `value` key; else do nothing. -/
def refWrite (r : RefCell) (nv : Value) : RefCell × List TrigEv :=
  if nv = r.value then (r, [])
  else ({ value := toReactive nv }, [TrigEv.set 0])

/-- The element prop setter (instance.ts lines 255-261): if the new value is
identical to the stored one, do nothing; else validate it (`validateProp`
throws on invalid values and, with the `cast` flag normalised to `false`,
returns the value unchanged — the validity conditions are abstracted by the
`valid` predicate), store the wrapped value and trigger SET on the key.
`none` models the propagated validation exception. -/
def propWrite (valid : Value → Bool) (key : Nat) (cur : Value) (nv : Value) :
    Option (Value × List TrigEv) :=
  if nv = cur then some (cur, [])
  else if valid nv then some (toReactive nv, [TrigEv.set key])
  else none

/-! ## The `computed` entry point — `packages/fx/src/computed.ts` lines 53-67

`computed(target)` dispatches on the JavaScript type of `target`:
`isFunction` gives a getter-only ref, `isObject` a get/set ref, anything else
throws `TypeError('Not a valid target')`.  `isFunction`/`isObject` are the
`@kirei/shared` helpers (module not in the snapshot; behaviour fixed by its
test suite, which is in the snapshot). -/

/-- A JavaScript value, as far as `isFunction`/`isObject` distinguish them. -/
inductive JSVal where
  | num (n : Int)
  | str (id : Nat)
  | boolean (b : Bool)
  | null
  | undef
  | sym (id : Nat)
  | func (id : Nat)
  | obj (id : Nat)
  | arr (id : Nat)
deriving DecidableEq, Repr

/-- Modelled from the `@kirei/shared` tests: `isFunction` holds exactly for
functions. -/
def isFunction : JSVal → Bool
  | JSVal.func _ => true
  | _ => false

/-- Modelled from the `@kirei/shared` tests: `isObject` holds for objects and
arrays, and for nothing else (not null, not undefined, not primitives). -/
def isObject : JSVal → Bool
  | JSVal.obj _ => true
  | JSVal.arr _ => true
  | _ => false

/-- The ref built by `computed`: the cached cell of `computedGetter` plus the
optional setter (`none` when only a getter was supplied). -/
structure CompRef where
  cached : Nat
  dirty : Bool
  setFn : Option Nat
deriving DecidableEq, Repr

/-- `computed(target)` (computed.ts lines 53-67): a function target gives a
getter-only ref; an object target gives a ref whose setter is the object's
`set` member (looked up by `setOf`); any other target throws `TypeError`
(modelled by `none`). -/
def computedRef (setOf : JSVal → Option Nat) (v : JSVal) : Option CompRef :=
  if isFunction v then some { cached := 0, dirty := true, setFn := none }
  else if isObject v then some { cached := 0, dirty := true, setFn := setOf v }
  else none

/-- Outcome of writing to a computed ref: the write is a reported error, or
it is delegated to the supplied setter with the new value. -/
inductive WriteRes where
  | errored
  | delegated (setter : Nat) (nv : Nat)
deriving DecidableEq, Repr

/-- Modelled from the spec: writing a computed ref: with no setter the write
is a reported error that leaves the cell untouched; with a setter the write
delegates the new value to it. -/
def compWrite (r : CompRef) (nv : Nat) : CompRef × WriteRes :=
  match r.setFn with
  | none => (r, WriteRes.errored)
  | some s => (r, WriteRes.delegated s nv)

/-! ## Lemmas about `track` -/

theorem track_of_pause (s : FxState) (l : Loc) (h : 0 < s.pauseCount) :
    track s l = s := by
  unfold track
  rw [if_pos h]

theorem track_activeStack (s : FxState) (l : Loc) :
    (track s l).activeStack = s.activeStack := by
  unfold track
  repeat' split
  all_goals rfl

theorem track_pauseCount (s : FxState) (l : Loc) :
    (track s l).pauseCount = s.pauseCount := by
  unfold track
  repeat' split
  all_goals rfl

theorem track_mem_registry (s : FxState) (l : Loc) (fx : Nat)
    (hp : ¬ 0 < s.pauseCount) (hstk : s.activeStack.head? = some fx)
    (g : Nat) (l' : Loc) :
    g ∈ (track s l).registry l' ↔ g ∈ s.registry l' ∨ (g = fx ∧ l' = l) := by
  unfold track
  rw [if_neg hp, hstk]
  by_cases hfx : fx ∈ s.registry l
  · simp only [if_pos hfx]
    constructor
    · exact Or.inl
    · rintro (h | ⟨rfl, rfl⟩)
      · exact h
      · exact hfx
  · simp only [if_neg hfx, Function.update_apply]
    by_cases hl : l' = l
    · simp only [hl, eq_self_iff_true, if_true, List.mem_append,
        List.mem_singleton, and_true]
    · simp only [if_neg hl]
      have hno : ¬(g = fx ∧ l' = l) := fun h => hl h.2
      tauto

theorem track_mem_effDeps (s : FxState) (l : Loc) (fx : Nat)
    (hp : ¬ 0 < s.pauseCount) (hstk : s.activeStack.head? = some fx)
    (hco : fx ∈ s.registry l → l ∈ s.effDeps fx)
    (g : Nat) (l' : Loc) :
    l' ∈ (track s l).effDeps g ↔ l' ∈ s.effDeps g ∨ (g = fx ∧ l' = l) := by
  unfold track
  rw [if_neg hp, hstk]
  by_cases hfx : fx ∈ s.registry l
  · simp only [if_pos hfx]
    constructor
    · exact Or.inl
    · rintro (h | ⟨rfl, rfl⟩)
      · exact h
      · exact hco hfx
  · simp only [if_neg hfx, Function.update_apply]
    by_cases hg : g = fx
    · simp only [hg, eq_self_iff_true, if_true, List.mem_append,
        List.mem_singleton, true_and]
    · simp only [if_neg hg]
      have hno : ¬(g = fx ∧ l' = l) := fun h => hg h.1
      tauto

theorem track_WF (s : FxState) (l : Loc) (hwf : WF s) : WF (track s l) := by
  by_cases hp : 0 < s.pauseCount
  · rw [track_of_pause s l hp]
    exact hwf
  · cases hstk : s.activeStack.head? with
    | none =>
      unfold track
      rw [if_neg hp, hstk]
      exact hwf
    | some fx =>
      intro g l'
      rw [track_mem_registry s l fx hp hstk g l',
        track_mem_effDeps s l fx hp hstk (fun h => (hwf fx l).mp h) g l', hwf g l']

theorem track_regNodup (s : FxState) (l : Loc)
    (hnd : ∀ l', (s.registry l').Nodup) :
    ∀ l', ((track s l).registry l').Nodup := by
  intro l'
  unfold track
  split
  · exact hnd l'
  · split
    · exact hnd l'
    · split
      · exact hnd l'
      · rename_i fx _ hfx
        simp only [Function.update_apply]
        by_cases hl : l' = l
        · subst hl
          rw [if_pos rfl, List.nodup_append]
          refine ⟨hnd _, List.nodup_singleton fx, ?_⟩
          intro a ha hb
          rw [List.mem_singleton] at hb
          exact hfx (hb ▸ ha)
        · rw [if_neg hl]
          exact hnd l'

/-! ## Lemmas about `cleanup` -/

theorem cleanup_not_mem_self (s : FxState) (fx : Nat) (hwf : WF s) (l : Loc) :
    fx ∉ (cleanup s fx).registry l := by
  intro h
  unfold cleanup at h
  dsimp only at h
  by_cases hl : l ∈ s.effDeps fx
  · rw [if_pos hl] at h
    rcases List.mem_filter.mp h with ⟨-, hne⟩
    exact bne_iff_ne.mp hne rfl
  · rw [if_neg hl] at h
    exact hl ((hwf fx l).mp h)

theorem cleanup_mem_registry_other (s : FxState) (fx g : Nat) (hg : g ≠ fx)
    (l : Loc) : g ∈ (cleanup s fx).registry l ↔ g ∈ s.registry l := by
  unfold cleanup
  dsimp only
  by_cases hl : l ∈ s.effDeps fx
  · rw [if_pos hl]
    constructor
    · intro h
      exact (List.mem_filter.mp h).1
    · intro h
      exact List.mem_filter.mpr ⟨h, bne_iff_ne.mpr hg⟩
  · rw [if_neg hl]

theorem cleanup_effDeps_self (s : FxState) (fx : Nat) :
    (cleanup s fx).effDeps fx = [] := by
  unfold cleanup
  dsimp only
  rw [Function.update_same]

theorem cleanup_effDeps_other (s : FxState) (fx g : Nat) (hg : g ≠ fx) :
    (cleanup s fx).effDeps g = s.effDeps g := by
  unfold cleanup
  dsimp only
  rw [Function.update_noteq hg]

theorem cleanup_WF (s : FxState) (fx : Nat) (hwf : WF s) : WF (cleanup s fx) := by
  intro g l
  by_cases hg : g = fx
  · subst hg
    constructor
    · intro h
      exact absurd h (cleanup_not_mem_self s g hwf l)
    · intro h
      rw [cleanup_effDeps_self] at h
      exact absurd h (List.not_mem_nil l)
  · rw [cleanup_mem_registry_other s fx g hg, cleanup_effDeps_other s fx g hg]
    exact hwf g l

theorem cleanup_regNodup (s : FxState) (fx : Nat)
    (hnd : ∀ l, (s.registry l).Nodup) :
    ∀ l, ((cleanup s fx).registry l).Nodup := by
  intro l
  unfold cleanup
  dsimp only
  by_cases hl : l ∈ s.effDeps fx
  · rw [if_pos hl]
    exact (hnd l).filter _
  · rw [if_neg hl]
    exact hnd l

/-! ## The tracking fold performed by a run -/

theorem foldl_track_activeStack (reads : List Loc) :
    ∀ s : FxState, (reads.foldl track s).activeStack = s.activeStack := by
  induction reads with
  | nil => intro s; rfl
  | cons r rest ih =>
    intro s
    rw [List.foldl_cons, ih (track s r), track_activeStack]

theorem foldl_track_pauseCount (reads : List Loc) :
    ∀ s : FxState, (reads.foldl track s).pauseCount = s.pauseCount := by
  induction reads with
  | nil => intro s; rfl
  | cons r rest ih =>
    intro s
    rw [List.foldl_cons, ih (track s r), track_pauseCount]

theorem foldl_track_of_pause (reads : List Loc) :
    ∀ s : FxState, 0 < s.pauseCount → reads.foldl track s = s := by
  induction reads with
  | nil => intro s _; rfl
  | cons r rest ih =>
    intro s h
    rw [List.foldl_cons, track_of_pause s r h, ih s h]

theorem foldl_track_spec (fx : Nat) (reads : List Loc) :
    ∀ s : FxState, s.pauseCount = 0 → s.activeStack.head? = some fx → WF s →
      (∀ g l, g ∈ (reads.foldl track s).registry l ↔
        g ∈ s.registry l ∨ (g = fx ∧ l ∈ reads)) ∧
      (∀ g l, l ∈ (reads.foldl track s).effDeps g ↔
        l ∈ s.effDeps g ∨ (g = fx ∧ l ∈ reads)) ∧
      WF (reads.foldl track s) := by
  induction reads with
  | nil =>
    intro s _ _ hwf
    refine ⟨fun g l => ?_, fun g l => ?_, hwf⟩
    · simp only [List.foldl_nil, List.not_mem_nil, and_false, or_false]
    · simp only [List.foldl_nil, List.not_mem_nil, and_false, or_false]
  | cons r rest ih =>
    intro s hp hstk hwf
    have hp' : ¬ 0 < s.pauseCount := by omega
    have hmr := track_mem_registry s r fx hp' hstk
    have hme := track_mem_effDeps s r fx hp' hstk (fun h => (hwf fx r).mp h)
    have hwf1 : WF (track s r) := track_WF s r hwf
    have hp1 : (track s r).pauseCount = 0 := by rw [track_pauseCount, hp]
    have hstk1 : (track s r).activeStack.head? = some fx := by
      rw [track_activeStack]; exact hstk
    obtain ⟨hr, he, hw⟩ := ih (track s r) hp1 hstk1 hwf1
    refine ⟨fun g l => ?_, fun g l => ?_, hw⟩
    · rw [List.foldl_cons, hr g l, hmr g l, List.mem_cons]
      tauto
    · rw [List.foldl_cons, he g l, hme g l, List.mem_cons]
      tauto

theorem foldl_track_regNodup (reads : List Loc) :
    ∀ s : FxState, (∀ l, (s.registry l).Nodup) →
      ∀ l, ((reads.foldl track s).registry l).Nodup := by
  induction reads with
  | nil => intro s hnd; exact hnd
  | cons r rest ih =>
    intro s hnd
    rw [List.foldl_cons]
    exact ih (track s r) (track_regNodup s r hnd)

/-! ## The full run — `Fx.run` over a list of reads -/

theorem popActive_registry (s : FxState) : (popActive s).registry = s.registry :=
  rfl

theorem popActive_effDeps (s : FxState) : (popActive s).effDeps = s.effDeps :=
  rfl

theorem popActive_pauseCount (s : FxState) :
    (popActive s).pauseCount = s.pauseCount :=
  rfl

theorem popActive_activeStack (s : FxState) :
    (popActive s).activeStack = s.activeStack.tail :=
  rfl

theorem pushActive_registry (s : FxState) (fx : Nat) :
    (pushActive s fx).registry = s.registry :=
  rfl

theorem pushActive_effDeps (s : FxState) (fx : Nat) :
    (pushActive s fx).effDeps = s.effDeps :=
  rfl

theorem runReads_spec (s : FxState) (fx : Nat) (reads : List Loc)
    (hp : s.pauseCount = 0) (hwf : WF s) :
    (∀ l, l ∈ (runReads s fx reads).effDeps fx ↔ l ∈ reads) ∧
    (∀ l, fx ∈ (runReads s fx reads).registry l ↔ l ∈ reads) ∧
    (runReads s fx reads).activeStack = s.activeStack ∧
    (runReads s fx reads).pauseCount = 0 ∧
    WF (runReads s fx reads) := by
  have hwf2 : WF (pushActive (cleanup s fx) fx) := fun g l =>
    cleanup_WF s fx hwf g l
  obtain ⟨hr, he, hw⟩ :=
    foldl_track_spec fx reads (pushActive (cleanup s fx) fx) hp rfl hwf2
  unfold runReads
  refine ⟨fun l => ?_, fun l => ?_, ?_, ?_, fun g l => hw g l⟩
  · rw [popActive_effDeps, he fx l, pushActive_effDeps, cleanup_effDeps_self]
    simp only [List.not_mem_nil, false_or, true_and]
  · rw [popActive_registry, hr fx l]
    have h0 : fx ∉ (pushActive (cleanup s fx) fx).registry l :=
      cleanup_not_mem_self s fx hwf l
    constructor
    · rintro (h | ⟨-, h⟩)
      · exact absurd h h0
      · exact h
    · intro h
      exact Or.inr ⟨rfl, h⟩
  · rw [popActive_activeStack, foldl_track_activeStack]
    rfl
  · rw [popActive_pauseCount, foldl_track_pauseCount]
    exact hp

theorem runReads_regNodup (s : FxState) (fx : Nat) (reads : List Loc)
    (hnd : ∀ l, (s.registry l).Nodup) :
    ∀ l, ((runReads s fx reads).registry l).Nodup := by
  intro l
  unfold runReads
  rw [popActive_registry]
  exact foldl_track_regNodup reads (pushActive (cleanup s fx) fx)
    (cleanup_regNodup s fx hnd) l

theorem runReads_activeStack (s : FxState) (fx : Nat) (reads : List Loc) :
    (runReads s fx reads).activeStack = s.activeStack := by
  unfold runReads
  rw [popActive_activeStack, foldl_track_activeStack]
  rfl

/-! ## Lemmas about the propagation loop of `computedGetter` -/

theorem propStep_mono (outer : Nat) (st : FxState) (l l' : Loc) (x : Nat)
    (h : x ∈ st.registry l') : x ∈ (propStep outer st l).registry l' := by
  unfold propStep
  split
  · exact h
  · dsimp only
    rw [Function.update_apply]
    by_cases hl : l' = l
    · subst hl
      rw [if_pos rfl]
      exact List.mem_append_left _ h
    · rw [if_neg hl]
      exact h

theorem propStep_mem_outer (outer : Nat) (st : FxState) (l : Loc) :
    outer ∈ (propStep outer st l).registry l := by
  unfold propStep
  split
  · rename_i h
    exact h
  · dsimp only
    rw [Function.update_apply, if_pos rfl]
    exact List.mem_append_right _ (List.mem_singleton.mpr rfl)

theorem propStep_regNodup (outer : Nat) (st : FxState) (l : Loc)
    (hnd : ∀ l', (st.registry l').Nodup) :
    ∀ l', ((propStep outer st l).registry l').Nodup := by
  intro l'
  unfold propStep
  split
  · exact hnd l'
  · rename_i h
    dsimp only
    rw [Function.update_apply]
    by_cases hl : l' = l
    · subst hl
      rw [if_pos rfl, List.nodup_append]
      refine ⟨hnd _, List.nodup_singleton outer, ?_⟩
      intro a ha hb
      rw [List.mem_singleton] at hb
      exact h (hb ▸ ha)
    · rw [if_neg hl]
      exact hnd l'

theorem propStep_effDeps_sub (outer : Nat) (st : FxState) (l : Loc) (g : Nat)
    (x : Loc) (h : x ∈ (propStep outer st l).effDeps g) :
    x ∈ st.effDeps g ∨ x = l := by
  unfold propStep at h
  split at h
  · exact Or.inl h
  · dsimp only at h
    rw [Function.update_apply] at h
    by_cases hg : g = outer
    · rw [if_pos hg] at h
      rcases List.mem_append.mp h with h1 | h1
      · exact Or.inl (hg ▸ h1)
      · exact Or.inr (List.mem_singleton.mp h1)
    · rw [if_neg hg] at h
      exact Or.inl h

theorem foldl_propStep_mono (outer : Nat) (L : List Loc) :
    ∀ (st : FxState) (l' : Loc) (x : Nat), x ∈ st.registry l' →
      x ∈ (L.foldl (propStep outer) st).registry l' := by
  induction L with
  | nil => intro st l' x h; exact h
  | cons r rest ih =>
    intro st l' x h
    rw [List.foldl_cons]
    exact ih (propStep outer st r) l' x (propStep_mono outer st r l' x h)

theorem foldl_propStep_mem (outer : Nat) (L : List Loc) :
    ∀ (st : FxState) (l : Loc), l ∈ L →
      outer ∈ (L.foldl (propStep outer) st).registry l := by
  induction L with
  | nil =>
    intro st l h
    exact absurd h (List.not_mem_nil l)
  | cons r rest ih =>
    intro st l h
    rw [List.foldl_cons]
    rcases List.mem_cons.mp h with rfl | h1
    · exact foldl_propStep_mono outer rest (propStep outer st l) l outer
        (propStep_mem_outer outer st l)
    · exact ih (propStep outer st r) l h1

theorem foldl_propStep_regNodup (outer : Nat) (L : List Loc) :
    ∀ st : FxState, (∀ l, (st.registry l).Nodup) →
      ∀ l, ((L.foldl (propStep outer) st).registry l).Nodup := by
  induction L with
  | nil => intro st hnd; exact hnd
  | cons r rest ih =>
    intro st hnd
    rw [List.foldl_cons]
    exact ih (propStep outer st r) (propStep_regNodup outer st r hnd)

theorem foldl_propStep_effDeps (outer : Nat) (L : List Loc) :
    ∀ (st : FxState) (g : Nat) (x : Loc),
      x ∈ (L.foldl (propStep outer) st).effDeps g →
      x ∈ st.effDeps g ∨ x ∈ L := by
  induction L with
  | nil => intro st g x h; exact Or.inl h
  | cons r rest ih =>
    intro st g x h
    rw [List.foldl_cons] at h
    rcases ih (propStep outer st r) g x h with h1 | h1
    · rcases propStep_effDeps_sub outer st r g x h1 with h2 | h2
      · exact Or.inl h2
      · exact Or.inr (List.mem_cons.mpr (Or.inl h2))
    · exact Or.inr (List.mem_cons.mpr (Or.inr h1))

theorem propagate_mem_outer (inner outer : Nat) (s : FxState) (l : Loc)
    (h : l ∈ s.effDeps inner) :
    outer ∈ (propagate inner outer s).registry l :=
  foldl_propStep_mem outer (s.effDeps inner) s l h

theorem propagate_regNodup (inner outer : Nat) (s : FxState)
    (hnd : ∀ l, (s.registry l).Nodup) :
    ∀ l, ((propagate inner outer s).registry l).Nodup :=
  foldl_propStep_regNodup outer (s.effDeps inner) s hnd

theorem propagate_effDeps_inner (inner outer : Nat) (s : FxState) (x : Loc)
    (h : x ∈ (propagate inner outer s).effDeps inner) :
    x ∈ s.effDeps inner := by
  rcases foldl_propStep_effDeps outer (s.effDeps inner) s inner x h with h1 | h1
  · exact h1
  · exact h1

theorem propagateToActive_of_stack (inner outer : Nat) (rest : List Nat)
    (s : FxState) (hstk : s.activeStack = outer :: rest) :
    propagateToActive inner s = propagate inner outer s := by
  unfold propagateToActive
  rw [hstk]
  rfl

/-! ## Lemmas about the computed getter -/

theorem compRead_fx (γ : CompCtx) (s : CompS) :
    (compRead γ s).fx = propagateToActive γ.innerId
      (if s.dirty then runReads s.fx γ.innerId γ.reads else s.fx) := by
  unfold compRead
  cases hd : s.dirty <;> simp [hd]

theorem compRead_dirty (γ : CompCtx) (s : CompS) :
    (compRead γ s).dirty = false := by
  unfold compRead
  cases hd : s.dirty <;> simp [hd]

theorem compRead_runCount (γ : CompCtx) (s : CompS) :
    (compRead γ s).runCount =
      if s.dirty then s.runCount + 1 else s.runCount := by
  unfold compRead
  cases hd : s.dirty <;> simp [hd]

theorem compRead_value (γ : CompCtx) (s : CompS) :
    (compRead γ s).value = if s.dirty then γ.getterVal else s.value := by
  unfold compRead
  cases hd : s.dirty <;> simp [hd]

theorem compReads_clean (γ : CompCtx) (n : Nat) :
    ∀ s : CompS, s.dirty = false →
      (compReads γ n s).runCount = s.runCount ∧
      (compReads γ n s).value = s.value ∧
      (compReads γ n s).dirty = false := by
  induction n with
  | zero => intro s hd; exact ⟨rfl, rfl, hd⟩
  | succ n ih =>
    intro s hd
    have h1 := compRead_runCount γ s
    have h2 := compRead_value γ s
    rw [hd] at h1 h2
    simp only [Bool.false_eq_true, if_false] at h1 h2
    obtain ⟨ha, hb, hc⟩ := ih (compRead γ s) (compRead_dirty γ s)
    exact ⟨by rw [compReads, ha, h1], by rw [compReads, hb, h2], by
      rw [compReads, hc]⟩

theorem compTrigger_fx (γ : CompCtx) (l : Loc) (s : CompS) :
    (compTrigger γ l s).fx = s.fx := by
  unfold compTrigger
  split <;> rfl

theorem compTrigger_runCount (γ : CompCtx) (l : Loc) (s : CompS) :
    (compTrigger γ l s).runCount = s.runCount := by
  unfold compTrigger
  split <;> rfl

theorem compTrigger_dirty (γ : CompCtx) (l : Loc) (s : CompS)
    (h : γ.innerId ∈ s.fx.registry l) :
    (compTrigger γ l s).dirty = true := by
  unfold compTrigger
  rw [if_pos h]

theorem compTrigger_dirty_mono (γ : CompCtx) (l : Loc) (s : CompS)
    (h : s.dirty = true) : (compTrigger γ l s).dirty = true := by
  unfold compTrigger
  split
  · rfl
  · exact h

theorem compTriggers_spec (γ : CompCtx) (l : Loc) (m : Nat) :
    ∀ s : CompS, s.dirty = true →
      (compTriggers γ l m s).dirty = true ∧
      (compTriggers γ l m s).runCount = s.runCount := by
  induction m with
  | zero => intro s hd; exact ⟨hd, rfl⟩
  | succ m ih =>
    intro s hd
    obtain ⟨ha, hb⟩ := ih (compTrigger γ l s) (compTrigger_dirty_mono γ l s hd)
    refine ⟨by rw [compTriggers, ha], ?_⟩
    rw [compTriggers, hb, compTrigger_runCount]

/-! ## Lemmas about the deferred task queue -/

theorem qpush_of_pending (q : QState) (j : Nat) (h : q.pending j = true) :
    qpush q j = q := by
  unfold qpush
  rw [if_pos h]

theorem qpush_inv (q : QState) (j : Nat) (h : QInv q) : QInv (qpush q j) := by
  obtain ⟨hnd, hpend⟩ := h
  unfold qpush
  by_cases hp : q.pending j = true
  · rw [if_pos hp]
    exact ⟨hnd, hpend⟩
  · rw [if_neg hp]
    have hj : j ∉ q.jobs := fun hmem => hp ((hpend j).mpr hmem)
    constructor
    · rw [List.nodup_append]
      refine ⟨hnd, List.nodup_singleton j, ?_⟩
      intro a ha hb
      rw [List.mem_singleton] at hb
      exact hj (hb ▸ ha)
    · intro k
      dsimp only
      rw [Function.update_apply, List.mem_append, List.mem_singleton]
      by_cases hk : k = j
      · subst hk
        simp
      · rw [if_neg hk]
        constructor
        · intro hmem
          exact Or.inl ((hpend k).mp hmem)
        · rintro (hmem | rfl)
          · exact (hpend k).mpr hmem
          · exact absurd rfl hk

theorem execJob_null (thr : Nat → Bool) (q : QState) (j : Nat) :
    execJob (fun _ => []) thr q j =
      (q, if thr j then QEv.errored j else QEv.ran j) := by
  unfold execJob
  cases hthr : thr j <;> simp [hthr]

theorem flushLoop_none (env : Nat → List Nat) (thr : Nat → Bool) (fuel : Nat)
    (q : QState) (i : Nat) (log : List QEv) (h : q.jobs[i]? = none) :
    flushLoop env thr fuel q i log =
      ({ q with jobs := [], flushing := false }, log) := by
  unfold flushLoop
  rw [h]

theorem flushLoop_some (env : Nat → List Nat) (thr : Nat → Bool) (f : Nat)
    (q : QState) (i : Nat) (log : List QEv) (j : Nat)
    (h : q.jobs[i]? = some j) :
    flushLoop env thr (f + 1) q i log =
      flushLoop env thr f
        (execJob env thr { q with pending := Function.update q.pending j false } j).1
        (i + 1)
        (log ++
          [(execJob env thr
            { q with pending := Function.update q.pending j false } j).2]) := by
  conv_lhs => unfold flushLoop
  rw [h]

theorem flushLoop_null_spec (thr : Nat → Bool) (fuel : Nat) :
    ∀ (q : QState) (i : Nat) (log : List QEv), q.jobs.length ≤ i + fuel →
      (flushLoop (fun _ => []) thr fuel q i log).2 =
        log ++ ((q.jobs.drop i).map
          fun j => if thr j then QEv.errored j else QEv.ran j) ∧
      (flushLoop (fun _ => []) thr fuel q i log).1.jobs = [] ∧
      (flushLoop (fun _ => []) thr fuel q i log).1.flushing = false := by
  induction fuel with
  | zero =>
    intro q i log h
    rw [Nat.add_zero] at h
    rw [flushLoop_none _ thr 0 q i log (List.getElem?_eq_none h),
      List.drop_eq_nil_of_le h]
    exact ⟨by rw [List.map_nil, List.append_nil], rfl, rfl⟩
  | succ f ih =>
    intro q i log h
    cases hj : q.jobs[i]? with
    | none =>
      have hlen : q.jobs.length ≤ i := List.getElem?_eq_none_iff.mp hj
      rw [flushLoop_none _ thr (f + 1) q i log hj, List.drop_eq_nil_of_le hlen]
      exact ⟨by rw [List.map_nil, List.append_nil], rfl, rfl⟩
    | some j =>
      obtain ⟨hlt, hget⟩ := List.getElem?_eq_some_iff.mp hj
      rw [flushLoop_some _ thr f q i log j hj, execJob_null]
      have hlen : q.jobs.length ≤ (i + 1) + f := by omega
      obtain ⟨h2, h1, h0⟩ := ih
        { q with pending := Function.update q.pending j false } (i + 1)
        (log ++ [if thr j then QEv.errored j else QEv.ran j]) hlen
      refine ⟨?_, h1, h0⟩
      rw [h2, List.drop_eq_getElem_cons hlt, hget, List.map_cons,
        List.append_assoc]
      rfl

theorem compRead_runCount_dirty (γ : CompCtx) (s : CompS)
    (hd : s.dirty = true) : (compRead γ s).runCount = s.runCount + 1 := by
  rw [compRead_runCount, hd]
  simp

theorem compRead_value_dirty (γ : CompCtx) (s : CompS) (hd : s.dirty = true) :
    (compRead γ s).value = γ.getterVal := by
  rw [compRead_value, hd]
  simp

theorem propagate_count_one (inner outer : Nat) (t : FxState)
    (hnd : ∀ l, (t.registry l).Nodup) :
    (∀ l, l ∈ (propagate inner outer t).effDeps inner →
      ((propagate inner outer t).registry l).count outer = 1) ∧
    (∀ l, ((propagate inner outer t).registry l).Nodup) := by
  have hnd2 := propagate_regNodup inner outer t hnd
  refine ⟨fun l hl => ?_, hnd2⟩
  have hmem : outer ∈ (propagate inner outer t).registry l :=
    propagate_mem_outer inner outer t l
      (propagate_effDeps_inner inner outer t l hl)
  exact List.count_eq_one_of_mem (hnd2 l) hmem

/-! ## The claims -/

/-- C1: for every computed value built from a getter, consecutive reads with
no intervening dependency trigger execute the underlying getter exactly once
(the first read computes and caches, later reads return the cached value);
each dependency trigger only sets the dirty flag and never recomputes; and
after one or more such triggers the next read executes the getter exactly
once. -/
theorem computed_getter_runs_once (γ : CompCtx) :
    (∀ (s : CompS) (n : Nat), s.dirty = true →
      (compReads γ (n + 1) s).runCount = s.runCount + 1 ∧
      (compReads γ (n + 1) s).value = γ.getterVal) ∧
    (∀ (s : CompS) (l : Loc) (m : Nat), γ.innerId ∈ s.fx.registry l →
      (compTriggers γ l (m + 1) s).dirty = true ∧
      (compTriggers γ l (m + 1) s).runCount = s.runCount) ∧
    (∀ s : CompS, s.dirty = true →
      (compRead γ s).runCount = s.runCount + 1) := by
  refine ⟨fun s n hd => ?_, fun s l m hmem => ?_,
    fun s hd => compRead_runCount_dirty γ s hd⟩
  · obtain ⟨ha, hb, -⟩ :=
      compReads_clean γ n (compRead γ s) (compRead_dirty γ s)
    constructor
    · show (compReads γ n (compRead γ s)).runCount = s.runCount + 1
      rw [ha, compRead_runCount_dirty γ s hd]
    · show (compReads γ n (compRead γ s)).value = γ.getterVal
      rw [hb, compRead_value_dirty γ s hd]
  · have h1 : (compTrigger γ l s).dirty = true := compTrigger_dirty γ l s hmem
    obtain ⟨ha, hb⟩ := compTriggers_spec γ l m (compTrigger γ l s) h1
    constructor
    · show (compTriggers γ l m (compTrigger γ l s)).dirty = true
      exact ha
    · show (compTriggers γ l m (compTrigger γ l s)).runCount = s.runCount
      rw [hb, compTrigger_runCount]

/-- Witness for C1: three consecutive reads of a fresh computed value run its
getter exactly once. -/
theorem computed_getter_runs_once_witness :
    (compReads ⟨0, [(0, 0)], 5⟩ 3 ⟨initState, 0, true, 0⟩).runCount = 0 + 1 :=
  ((computed_getter_runs_once ⟨0, [(0, 0)], 5⟩).1 ⟨initState, 0, true, 0⟩ 2
    rfl).1

/-- C2: after any read of a computed value while an outer effect is active,
every Dep in the computed's internal effect's deps list contains the outer
active effect exactly once, and no Dep anywhere contains the same effect
twice (assuming it did not before). -/
theorem computed_propagation_unique (γ : CompCtx) (s : CompS) (outer : Nat)
    (rest : List Nat) (hnd : ∀ l, (s.fx.registry l).Nodup)
    (hstk : s.fx.activeStack = outer :: rest) :
    (∀ l, l ∈ (compRead γ s).fx.effDeps γ.innerId →
      ((compRead γ s).fx.registry l).count outer = 1) ∧
    (∀ l, ((compRead γ s).fx.registry l).Nodup) := by
  cases hd : s.dirty with
  | false =>
    have hfx : (compRead γ s).fx = propagate γ.innerId outer s.fx := by
      rw [compRead_fx, hd]
      exact propagateToActive_of_stack γ.innerId outer rest s.fx hstk
    rw [hfx]
    exact propagate_count_one γ.innerId outer s.fx hnd
  | true =>
    have hstk2 : (runReads s.fx γ.innerId γ.reads).activeStack =
        outer :: rest := by
      rw [runReads_activeStack, hstk]
    have hfx : (compRead γ s).fx =
        propagate γ.innerId outer (runReads s.fx γ.innerId γ.reads) := by
      rw [compRead_fx, hd]
      exact propagateToActive_of_stack γ.innerId outer rest _ hstk2
    rw [hfx]
    exact propagate_count_one γ.innerId outer _
      (runReads_regNodup s.fx γ.innerId γ.reads hnd)

/-- Witness for C2: reading a fresh computed value under outer effect 7 puts
7 exactly once into the Dep of the tracked location. -/
theorem computed_propagation_unique_witness :
    ((compRead ⟨0, [(0, 0)], 5⟩
      ⟨⟨fun _ => [], fun _ => [], [7], 0⟩, 0, true, 0⟩).fx.registry
        (0, 0)).count 7 = 1 :=
  (computed_propagation_unique ⟨0, [(0, 0)], 5⟩
    ⟨⟨fun _ => [], fun _ => [], [7], 0⟩, 0, true, 0⟩ 7 []
    (fun _ => List.nodup_nil) rfl).1 (0, 0) (by decide)

/-- C3: a job cannot be pending twice (pushing a pending job is the
identity, and the queue invariant is preserved); the pending flag is cleared
immediately before the job executes, so a job that re-enqueues itself during
its own execution is appended again and runs again within the same flush,
bounded by the runaway-cascade guard. -/
theorem queue_job_single_pending :
    (∀ (q : QState) (j : Nat), QInv q → QInv (qpush q j)) ∧
    (∀ (q : QState) (j : Nat), q.pending j = true → qpush q j = q) ∧
    (∀ (q : QState) (j : Nat),
      (execJob (fun x => [x]) (fun _ => false)
        { q with pending := Function.update q.pending j false } j).1.jobs =
        q.jobs ++ [j]) ∧
    (qflush (fun x => [x]) (fun _ => false) 5 (qpush qinit 0)).2 =
      [QEv.ran 0, QEv.ran 0, QEv.ran 0, QEv.ran 0, QEv.ran 0,
        QEv.loopError] := by
  refine ⟨fun q j h => qpush_inv q j h, fun q j h => qpush_of_pending q j h,
    fun q j => ?_, by decide⟩
  show (qpush { q with pending := Function.update q.pending j false } j).jobs =
    q.jobs ++ [j]
  simp [qpush, Function.update_same]

/-- Witness for C3: pushing a job onto the empty queue preserves the queue
invariant. -/
theorem queue_job_single_pending_witness : QInv (qpush qinit 0) :=
  queue_job_single_pending.1 qinit 0
    ⟨List.nodup_nil, fun j => by simp [qinit]⟩

/-- C4: for the ref cell and the element prop setter, writing a value
identical to the stored one triggers nothing and changes nothing; writing a
different (valid) value stores it — wrapped by `toReactive`, the identity on
primitive values — and triggers SET exactly once. -/
theorem write_identity_guard :
    (∀ (r : RefCell) (nv : Value), nv = r.value → refWrite r nv = (r, [])) ∧
    (∀ (r : RefCell) (nv : Value), nv ≠ r.value →
      refWrite r nv = (⟨toReactive nv⟩, [TrigEv.set 0])) ∧
    (∀ (valid : Value → Bool) (key : Nat) (cur nv : Value), nv = cur →
      propWrite valid key cur nv = some (cur, [])) ∧
    (∀ (valid : Value → Bool) (key : Nat) (cur nv : Value), nv ≠ cur →
      valid nv = true →
      propWrite valid key cur nv = some (toReactive nv, [TrigEv.set key])) ∧
    (∀ n : Nat, toReactive (Value.prim n) = Value.prim n) := by
  refine ⟨?_, ?_, ?_, ?_, fun n => rfl⟩
  · intro r nv h
    unfold refWrite
    rw [if_pos h]
  · intro r nv h
    unfold refWrite
    rw [if_neg h]
  · intro valid key cur nv h
    unfold propWrite
    rw [if_pos h]
  · intro valid key cur nv h hv
    unfold propWrite
    rw [if_neg h, if_pos hv]

/-- Witness for C4: writing the stored value back into a ref is a no-op with
no trigger. -/
theorem write_identity_guard_witness :
    refWrite ⟨Value.prim 1⟩ (Value.prim 1) = (⟨Value.prim 1⟩, []) :=
  write_identity_guard.1 ⟨Value.prim 1⟩ (Value.prim 1) rfl

/-- C5: immediately after a run, an effect's deps list contains exactly the
locations read during that run, the effect sits in exactly those Deps, and
an effect that read A in one run and only B in the next is not in the
run-set a subsequent trigger on A collects. -/
theorem effect_deps_exact_after_run (s : FxState) (fx : Nat)
    (reads : List Loc) (hp : s.pauseCount = 0) (hwf : WF s) :
    (∀ l, l ∈ (runReads s fx reads).effDeps fx ↔ l ∈ reads) ∧
    (∀ l, fx ∈ triggerSet (runReads s fx reads) l ↔ l ∈ reads) ∧
    (∀ A B : Loc, A ≠ B →
      fx ∉ triggerSet (runReads (runReads s fx [A]) fx [B]) A) := by
  obtain ⟨h1, h2, -, -, -⟩ := runReads_spec s fx reads hp hwf
  refine ⟨h1, h2, fun A B hAB hmem => ?_⟩
  obtain ⟨-, -, -, hp2, hwf2⟩ := runReads_spec s fx [A] hp hwf
  obtain ⟨-, g2, -, -, -⟩ := runReads_spec (runReads s fx [A]) fx [B] hp2 hwf2
  have hA := (g2 A).mp hmem
  rw [List.mem_singleton] at hA
  exact hAB hA

/-- Witness for C5: an effect that read location (0,0) and then re-ran
reading only (1,0) is no longer collected by a trigger on (0,0). -/
theorem effect_deps_exact_after_run_witness :
    0 ∉ triggerSet (runReads (runReads initState 0 [(0, 0)]) 0 [(1, 0)])
      (0, 0) :=
  (effect_deps_exact_after_run initState 0 [(0, 0)] rfl
    (fun g l => by simp [initState])).2.2 (0, 0) (1, 0) (by decide)

/-- C6: a computed value built from a getter only has no setter; writing it
is a reported error that leaves the cell unchanged; with a supplied setter
the write delegates to it. -/
theorem computed_readonly_write :
    (∀ (setOf : JSVal → Option Nat) (g : Nat),
      computedRef setOf (JSVal.func g) =
        some { cached := 0, dirty := true, setFn := none }) ∧
    (∀ (r : CompRef) (nv : Nat), r.setFn = none →
      compWrite r nv = (r, WriteRes.errored)) ∧
    (∀ (r : CompRef) (st nv : Nat), r.setFn = some st →
      compWrite r nv = (r, WriteRes.delegated st nv)) := by
  refine ⟨fun setOf g => rfl, ?_, ?_⟩
  · intro r nv h
    unfold compWrite
    rw [h]
  · intro r st nv h
    unfold compWrite
    rw [h]

/-- Witness for C6: writing a getter-only computed ref errors and leaves it
unchanged. -/
theorem computed_readonly_write_witness :
    compWrite ⟨0, true, none⟩ 4 = (⟨0, true, none⟩, WriteRes.errored) :=
  computed_readonly_write.2.1 ⟨0, true, none⟩ 4 rfl

/-- C7: during a flush, a throwing job is caught and reported, every other
pending job still produces its run event in the same flush, and the flush
completes with the sequence drained and the flushing flag cleared. -/
theorem flush_isolates_job_errors (thr : Nat → Bool) (q : QState) (fuel : Nat)
    (hf : q.jobs.length ≤ fuel) :
    (qflush (fun _ => []) thr fuel q).2 =
      q.jobs.map (fun j => if thr j then QEv.errored j else QEv.ran j) ∧
    (qflush (fun _ => []) thr fuel q).1.jobs = [] ∧
    (qflush (fun _ => []) thr fuel q).1.flushing = false := by
  unfold qflush
  obtain ⟨h2, h1, h0⟩ := flushLoop_null_spec thr fuel
    { q with flushing := true } 0 [] (by simpa using hf)
  refine ⟨?_, h1, h0⟩
  rw [h2]
  simp

/-- Witness for C7: a flush of three jobs where the middle one throws still
drains the whole queue. -/
theorem flush_isolates_job_errors_witness :
    (qflush (fun _ => []) (fun j => j == 1) 3
      ⟨[0, 1, 2], fun _ => false, false⟩).1.jobs = [] :=
  (flush_isolates_job_errors (fun j => j == 1)
    ⟨[0, 1, 2], fun _ => false, false⟩ 3 (by decide)).2.1

/-- C8: calling `computed` on a value that is neither a function nor an
object (a number, string, boolean, null, undefined or symbol) throws a
TypeError instead of returning a ref. -/
theorem computed_rejects_invalid_target (setOf : JSVal → Option Nat)
    (v : JSVal) (hf : isFunction v = false) (ho : isObject v = false) :
    computedRef setOf v = none := by
  unfold computedRef
  rw [hf, ho]
  rfl

/-- Witness for C8: `computed` of the number 3 is the TypeError outcome. -/
theorem computed_rejects_invalid_target_witness :
    computedRef (fun _ => none) (JSVal.num 3) = none :=
  computed_rejects_invalid_target (fun _ => none) (JSVal.num 3) rfl rfl

/-- C9: a scheduled instance has its rendering flag set; an update that
throws during its queued job leaves the flag set (the error path never
clears it); and any number of later `scheduleUpdate` calls on an instance
whose flag is set return immediately and enqueue nothing. -/
theorem update_error_blocks_rescheduling :
    (∀ s : Inst, (renderJob true s).rendering = s.rendering) ∧
    (∀ s : Inst × Nat, (scheduleUpdate s).1.rendering = true) ∧
    (∀ s : Inst × Nat, s.1.rendering = true → scheduleUpdate s = s) ∧
    (∀ (n : Nat) (s : Inst × Nat), s.1.rendering = true → schedN n s = s) := by
  have hfix : ∀ s : Inst × Nat, s.1.rendering = true → scheduleUpdate s = s := by
    intro s h
    unfold scheduleUpdate
    rw [if_pos h]
  refine ⟨fun s => rfl, ?_, hfix, ?_⟩
  · intro s
    unfold scheduleUpdate
    by_cases h : s.1.rendering = true
    · rw [if_pos h]
      exact h
    · rw [if_neg h]
  · intro n
    induction n with
    | zero => intro s h; rfl
    | succ n ih =>
      intro s h
      show schedN n (scheduleUpdate s) = s
      rw [hfix s h]
      exact ih s h

/-- Witness for C9: after a failed render left the flag set, three more
`scheduleUpdate` calls change nothing and enqueue nothing. -/
theorem update_error_blocks_rescheduling_witness :
    schedN 3 (⟨⟨true, true⟩, 1⟩ : Inst × Nat) = ⟨⟨true, true⟩, 1⟩ :=
  update_error_blocks_rescheduling.2.2.2 3 ⟨⟨true, true⟩, 1⟩ rfl

/-- C10: a throwing setup function leaves the pause counter incremented
(the reset is skipped), the balanced path restores it, `track` is a no-op
whenever the counter is positive, an effect run under a positive counter
collects no dependencies, and balanced pause/reset pairs keep the counter
positive. -/
theorem setup_throw_leaks_pause :
    (∀ s : FxState, (setupRun true s).pauseCount = s.pauseCount + 1) ∧
    (∀ s : FxState, (setupRun false s).pauseCount = s.pauseCount) ∧
    (∀ (s : FxState) (l : Loc), 0 < s.pauseCount → track s l = s) ∧
    (∀ (s : FxState) (fx : Nat) (reads : List Loc), 0 < s.pauseCount →
      (runReads s fx reads).effDeps fx = []) ∧
    (∀ s : FxState, 0 < s.pauseCount →
      0 < (resetTracking (pauseTracking s)).pauseCount) := by
  refine ⟨fun s => rfl, fun s => ?_, fun s l h => track_of_pause s l h,
    ?_, ?_⟩
  · show s.pauseCount + 1 - 1 = s.pauseCount
    omega
  · intro s fx reads h
    unfold runReads
    rw [popActive_effDeps,
      foldl_track_of_pause reads (pushActive (cleanup s fx) fx) h,
      pushActive_effDeps, cleanup_effDeps_self]
  · intro s h
    show 0 < s.pauseCount + 1 - 1
    omega

/-- Witness for C10: with the counter leaked to 1, `track` changes
nothing. -/
theorem setup_throw_leaks_pause_witness :
    track (pauseTracking initState) (0, 0) = pauseTracking initState :=
  setup_throw_leaks_pause.2.2.1 (pauseTracking initState) (0, 0) (by decide)

end LitFx
